import Mathlib

/-!
Verification of the background job subsystem of the `fire` repository
(the `axe` queue, the `stick` coding layer and the `torch` compute layer).

The Go source is embedded shallowly:

* `stick.Coding` dispatch (`Marshal`/`Unmarshal`) follows the switch in the
  source; the stdlib `json`/`bson` encoders themselves are external to the
  repository, so the byte-level codecs for the task payload schema (a struct
  with a single string field, as in the repository's job types) are modelled
  from the spec's round-trip law and wire-format section.
* `axe.Queue` (`Add`, `Run`, `update`, `get`, `Enqueue`) is translated
  field by field from the source file; Go maps become association lists,
  time values and durations become integers, and the random lag drawn by
  `rand.Int63n(maxLag)` becomes an explicit seed reduced modulo `maxLag`.
  A Go panic is represented by `Except.error` or by an `Option` result.
* the `torch` process job is modelled from the spec since its
  implementation is not part of the provided sources.
-/

namespace Stick

/-- Result of a Go call that can end in a runtime panic: `abort msg`
models `panic(msg)`. -/
inductive MResult (α : Type) where
  | ok : α → MResult α
  | abort : String → MResult α
  deriving DecidableEq, Repr

/-- JSON string escaping for one character: quote and backslash are
escaped with a backslash, everything else is copied. -/
def escapeChar (c : Char) : List Char :=
  if c = '"' ∨ c = '\\' then ['\\', c] else [c]

/-- JSON string escaping of a character sequence. -/
def escape : List Char → List Char
  | [] => []
  | c :: rest => escapeChar c ++ escape rest

/-- Modelled from the spec: the payload of a task job type is a struct with
a single string field `Data` (as in the repository's job types); the JSON
encoder emits the object with the field name as key. -/
def jsonHeader : List Char := ['{', '"', 'D', 'a', 't', 'a', '"', ':', '"']

/-- JSON encoding of a payload (the `Data` field content). -/
def jsonMarshal (p : List Char) : List Char :=
  jsonHeader ++ (escape p ++ ['"', '}'])

mutual

/-- Read a JSON string body up to the closing unescaped quote; returns the
unescaped content and the remaining input. -/
def readString : List Char → Option (List Char × List Char)
  | [] => none
  | c :: rest =>
    if c = '\\' then readEsc rest
    else if c = '"' then some ([], rest)
    else (readString rest).map (fun r => (c :: r.1, r.2))

/-- Read the character following a backslash escape. -/
def readEsc : List Char → Option (List Char × List Char)
  | [] => none
  | d :: rest2 => (readString rest2).map (fun r => (d :: r.1, r.2))

end

/-- Consume an expected token from the front of the input. -/
def dropTok : List Char → List Char → Option (List Char)
  | [], s => some s
  | _ :: _, [] => none
  | t :: ts, c :: cs => if c = t then dropTok ts cs else none

/-- JSON decoding of a payload. -/
def jsonUnmarshal (b : List Char) : Option (List Char) :=
  match dropTok jsonHeader b with
  | none => none
  | some rest =>
    match readString rest with
    | none => none
    | some r => if r.2 = ['}'] then some r.1 else none

/-- Little-endian 4-byte encoding of a length value, as used by the BSON
wire format for the document and string length fields. -/
def int32le (n : Nat) : List Nat :=
  [n % 256, n / 256 % 256, n / 65536 % 256, n / 16777216 % 256]

/-- Little-endian 4-byte decoding. -/
def le32 (b0 b1 b2 b3 : Nat) : Nat :=
  b0 + 256 * b1 + 65536 * b2 + 16777216 * b3

/-- One string character of the BSON payload as three little-endian code
units (every Unicode scalar value fits in three base-256 digits). -/
def charBytes (c : Char) : List Nat :=
  [c.toNat % 256, c.toNat / 256 % 256, c.toNat / 65536]

/-- BSON string payload: the characters in sequence. -/
def encodeUnits : List Char → List Nat
  | [] => []
  | c :: rest => charBytes c ++ encodeUnits rest

/-- Read back `k` three-byte code units. -/
def readUnits : Nat → List Nat → Option (List Char × List Nat)
  | 0, rest => some ([], rest)
  | k + 1, b0 :: b1 :: b2 :: rest =>
    (readUnits k rest).map (fun r => (Char.ofNat (b0 + 256 * b1 + 65536 * b2) :: r.1, r.2))
  | _ + 1, _ => none

/-- The field name bytes of the single payload field (`data`, the BSON key
is the lowercased field name per the coding-key rules of the source). -/
def keyBytes : List Nat := [100, 97, 116, 97]

/-- Modelled from the spec: BSON encoding of the payload struct, following
the BSON wire layout (document length, element type `0x02`, key, string
length, string bytes, terminators). -/
def bsonMarshal (p : List Char) : List Nat :=
  let units := encodeUnits p
  let body : List Nat := 2 :: keyBytes ++ [0] ++ int32le (units.length + 1) ++ units ++ [0, 0]
  int32le (body.length + 4) ++ body

/-- BSON decoding of the payload struct. -/
def bsonUnmarshal (b : List Nat) : Option (List Char) :=
  match b with
  | _ :: _ :: _ :: _ :: 2 :: 100 :: 97 :: 116 :: 97 :: 0 :: m0 :: m1 :: m2 :: m3 :: rest =>
    let m := le32 m0 m1 m2 m3
    if 1 ≤ m ∧ (m - 1) % 3 = 0 then
      match readUnits ((m - 1) / 3) rest with
      | some (s, [0, 0]) => some s
      | _ => none
    else none
  | _ => none

/-- JSON marshalling as a byte sequence (character code points). -/
def jsonMarshalB (p : List Char) : List Nat :=
  (jsonMarshal p).map Char.toNat

/-- JSON unmarshalling from a byte sequence. -/
def jsonUnmarshalB (b : List Nat) : Option (List Char) :=
  jsonUnmarshal (b.map Char.ofNat)

/-- `Coding` is a string type in the source (`type Coding string`). -/
abbrev Coding : Type := String

/-- The `json` coding constant. -/
def JSON : Coding := "json"

/-- The `bson` coding constant. -/
def BSON : Coding := "bson"

/-- Panic message of the default branch of the coding switch
(`fmt.Sprintf` with the `%q` verb quotes the coding). -/
def unknownMsg (c : Coding) : String :=
  "coal: unknown coding \"" ++ c ++ "\""

/-- `Coding.Marshal` from the source: dispatch on the coding, panic on any
other value. The payload is a struct (not a slice), so the BSON branch
takes the `bson.Marshal` path. -/
def Coding.Marshal (c : Coding) (p : List Char) : MResult (List Nat) :=
  if c = JSON then .ok (jsonMarshalB p)
  else if c = BSON then .ok (bsonMarshal p)
  else .abort (unknownMsg c)

/-- `Coding.Unmarshal` from the source: dispatch on the coding, panic on
any other value; a decode failure of a known coding is an error value,
modelled as `ok none`. -/
def Coding.Unmarshal (c : Coding) (b : List Nat) : MResult (Option (List Char)) :=
  if c = JSON then .ok (jsonUnmarshalB b)
  else if c = BSON then .ok (bsonUnmarshal b)
  else .abort (unknownMsg c)

end Stick

namespace Axe

/-- Job statuses of the `axe` job model. -/
inductive Status where
  | enqueued
  | dequeued
  | completed
  | failed
  | cancelled
  deriving DecidableEq, Repr

/-- The statuses a job may carry while being present on a board
(the `StatusEnqueued, StatusDequeued, StatusFailed` case of `update`). -/
def Status.dispatchable : Status → Bool
  | .enqueued => true
  | .dequeued => true
  | .failed => true
  | .completed => false
  | .cancelled => false

/-- The `axe` job model restricted to the fields read by the queue: id,
task name, dedup label, status, the `Available` and `Finished` timestamps.
Times and durations are integers (milliseconds). -/
structure Model where
  id : Nat
  name : String
  label : String
  status : Status
  available : Int
  finished : Int
  deriving DecidableEq, Repr

/-- A registered task: the job name derived from its job prototype
(`GetMeta(task.Job).Name`) plus an opaque body standing for the handler
and settings. -/
structure Task where
  name : String
  body : Nat
  deriving DecidableEq, Repr

/-- A per-task board: the in-memory map `ID → Job` as an association list. -/
structure Board where
  jobs : List (Nat × Model)
  deriving DecidableEq, Repr

/-- Go map write `m[k] = v`: replace the binding if the key is present,
otherwise append it. -/
def setA {α β : Type} [BEq α] (k : α) (v : β) : List (α × β) → List (α × β)
  | [] => [(k, v)]
  | (k2, v2) :: rest => if k2 == k then (k, v) :: rest else (k2, v2) :: setA k v rest

/-- Go map delete `delete(m, k)`. -/
def delA {α β : Type} [BEq α] (k : α) : List (α × β) → List (α × β)
  | [] => []
  | (k2, v2) :: rest => if k2 == k then delA k rest else (k2, v2) :: delA k rest

/-- The queue state: options (`MaxLag`, `BlockPeriod`), registered tasks,
the boards (a `nil` Go map before `Run`, modelled by `none`) and the
persistent job store the queue enqueues into. -/
structure Queue where
  maxLag : Int
  blockPeriod : Int
  tasks : List (String × Task)
  boards : Option (List (String × Board))
  store : List Model
  deriving DecidableEq, Repr

/-- `NewQueue` from the source: zero options default to 100ms `MaxLag`
and 10s `BlockPeriod`; the task map starts empty and the boards `nil`. -/
def NewQueue (maxLag blockPeriod : Int) (store : List Model) : Queue :=
  { maxLag := if maxLag = 0 then 100 else maxLag
    blockPeriod := if blockPeriod = 0 then 10000 else blockPeriod
    tasks := []
    boards := none
    store := store }

/-- `Queue.Add` from the source: panic when the boards map is already
initialized (the queue is running) or when a task with the same job name
exists; otherwise save the task. -/
def Queue.Add (q : Queue) (t : Task) : Except String Queue :=
  if q.boards.isSome then
    .error "axe: unable to add task to running queue"
  else if (q.tasks.lookup t.name).isSome then
    .error ("axe: task with name \"" ++ t.name ++ "\" already exists")
  else
    .ok { q with tasks := (t.name, t) :: q.tasks }

/-- `Queue.Run` from the source: initialize the boards map with one empty
board per registered task. -/
def Queue.Run (q : Queue) : Queue :=
  { q with boards := some (q.tasks.map (fun p => (p.1, ⟨[]⟩))) }

/-- The random lag: `rand.Int63n(maxLag)` yields a value in `[0, maxLag)`;
the draw is modelled by reducing an arbitrary seed modulo `maxLag`. -/
def lagOf (seed maxLag : Int) : Int := seed % maxLag

/-- `Queue.update` from the source (the reconciler callback): look up the
job's board (missing name: drop the event), then either store the job
with the random lag added to `Available` (dispatchable statuses) or delete
its entry (terminal statuses). -/
def Queue.update (q : Queue) (job : Model) (seed : Int) : Queue :=
  match q.boards with
  | none => q
  | some bs =>
    match bs.lookup job.name with
    | none => q
    | some b =>
      match job.status with
      | .enqueued | .dequeued | .failed =>
        let lag := lagOf seed q.maxLag
        let job2 := { job with available := job.available + lag }
        { q with boards := some (setA job.name ⟨setA job.id job2 b.jobs⟩ bs) }
      | .completed | .cancelled =>
        { q with boards := some (setA job.name ⟨delA job.id b.jobs⟩ bs) }

/-- Apply a sequence of reconciler callbacks (job and lag seed) in order. -/
def applyUpdates (q : Queue) : List (Model × Int) → Queue
  | [] => q
  | c :: rest => applyUpdates (q.update c.1 c.2) rest

/-- Scan of `Queue.get`: return the first job whose `Available` is before
`now` (strict, `time.Before`), with its `Available` pushed by the block
period; `none` when no job qualifies. -/
def getScan (bp now : Int) : List (Nat × Model) → Option (Nat × List (Nat × Model))
  | [] => none
  | (k, j) :: rest =>
    if j.available < now then
      some (j.id, (k, { j with available := j.available + bp }) :: rest)
    else
      (getScan bp now rest).map (fun r => (r.1, (k, j) :: r.2))

/-- `Queue.get` from the source: look up the board of the task (a missing
board is a `nil` pointer whose lock panics, modelled as `none`), then
return the first available job after blocking it, or the zero id and
`false`. Go map iteration order is unspecified; the model fixes the list
order, which realizes one admissible iteration order. -/
def Queue.get (q : Queue) (name : String) (now : Int) : Option ((Nat × Bool) × Queue) :=
  match q.boards with
  | none => none
  | some bs =>
    match bs.lookup name with
    | none => none
    | some b =>
      match getScan q.blockPeriod now b.jobs with
      | some r => some ((r.1, true), { q with boards := some (setA name ⟨r.2⟩ bs) })
      | none => some ((0, false), q)

/-- The job document inserted by an enqueue: status `Enqueued`,
`Available = now + delay`, not yet finished. -/
def mkJob (id : Nat) (name label : String) (available : Int) : Model :=
  { id := id
    name := name
    label := label
    status := .enqueued
    available := available
    finished := 0 }

/-- Modelled from the spec: the deduplication query of the package-level
`Enqueue` helper (its body is not part of the provided sources): a job
with the same `(Name, Label)` whose status is Enqueued, Dequeued or Failed,
or whose `Finished` is later than `now - period`. -/
def dupCheck (store : List Model) (name label : String) (now period : Int) : Bool :=
  store.any (fun r =>
    r.name == name && r.label == label &&
      (r.status.dispatchable || decide (now - period < r.finished)))

/-- Modelled from the spec: the package-level `Enqueue` helper. It computes
`Available = now + delay`; if `period > 0` and a label is present it
inserts only when the deduplication query finds nothing, else it inserts
unconditionally. Returns whether an insert happened and the new store. -/
def Enqueue (store : List Model) (now : Int) (freshId : Nat) (name label : String)
    (delay period : Int) : Bool × List Model :=
  let job := mkJob freshId name label (now + delay)
  if 0 < period ∧ label ≠ "" then
    if dupCheck store name label now period then (false, store)
    else (true, job :: store)
  else (true, job :: store)

/-- `Queue.Enqueue` from the source: delegate to the package-level helper
on the queue's own store. -/
def Queue.Enqueue (q : Queue) (now : Int) (freshId : Nat) (name label : String)
    (delay period : Int) : Bool × Queue :=
  let r := Axe.Enqueue q.store now freshId name label delay period
  (r.1, { q with store := r.2 })

/-- Invariant of the boards: every entry of every board carries a
dispatchable status. -/
def BoardsInv (q : Queue) : Prop :=
  ∀ bs, q.boards = some bs → ∀ p ∈ bs, ∀ e ∈ p.2.jobs, e.2.status.dispatchable = true

/-- Fixture: a dequeued job sitting on a board. -/
def jobD : Model :=
  { id := 3, name := "t", label := "", status := .dequeued, available := 4, finished := 0 }

/-- Fixture: the completed counterpart of `jobD`. -/
def jobC : Model :=
  { id := 3, name := "t", label := "", status := .completed, available := 4, finished := 9 }

/-- Fixture: an enqueued job that becomes available exactly at time 5. -/
def jobE5 : Model :=
  { id := 1, name := "t", label := "", status := .enqueued, available := 5, finished := 0 }

/-- Fixture: a board holding `jobD`. -/
def boardD : Board := ⟨[(3, jobD)]⟩

/-- Fixture: a board holding `jobE5`. -/
def boardE5 : Board := ⟨[(1, jobE5)]⟩

/-- Fixture: `boardE5` after `jobE5` was blocked by a 10s block period. -/
def boardE5b : Board := ⟨[(1, { jobE5 with available := jobE5.available + 10000 })]⟩

/-- Fixture: a running queue for task "t" with the given board. -/
def runningQ (b : Board) : Queue :=
  { maxLag := 100, blockPeriod := 10000, tasks := [("t", ⟨"t", 0⟩)],
    boards := some [("t", b)], store := [] }

end Axe

namespace Torch

/-- The `Status` sub-document embedded in compute-target models. -/
structure Status where
  progress : ℚ
  updated : Int
  hash : String
  valid : Bool
  deriving DecidableEq, Repr

/-- A compute-target model as used by the compute operation tests: a
version counter (for the conditional update), the `Input` field, the
derived `Output` field and the embedded `Status`. -/
structure TargetModel where
  version : Nat
  input : String
  output : String
  status : Option Status
  deriving DecidableEq, Repr

/-- Modelled from the spec: the content fingerprint of an input string
(an injective placeholder for the real digest). -/
def hashFn (s : String) : String := "#" ++ s

/-- Modelled from the spec and the tests' `StringHasher("Input")`: the
hasher returns the empty string for an empty input and the digest of the
input otherwise. -/
def stringHasher (m : TargetModel) : String :=
  if m.input = "" then "" else hashFn m.input

/-- The `Releaser` of the compute tests: stage clearing of the output
field (`ctx.Change("$set", "Output", "")`). -/
def releaser (m : TargetModel) : TargetModel :=
  { m with output := "" }

/-- The `Computer` of the compute tests: derive the output by
upper-casing the input. -/
def computer (m : TargetModel) : TargetModel :=
  { m with output := m.input.toUpper }

/-- Modelled from the spec: the process job `torch/Compute/<Name>`. Given
the model as loaded and the model currently in the store, the commit is a
conditional update requiring the version to be unchanged since load
(`none` models the retryable miss). An empty hasher output runs the
release path; otherwise the compute path runs and commits the staged
changes together with the validated status. -/
def processJob (loaded current : TargetModel) (now : Int) : Option TargetModel :=
  if current.version ≠ loaded.version then none
  else if stringHasher loaded = "" then
    some { releaser current with status := some ⟨1, now, "", true⟩ }
  else
    some { computer loaded with
           version := current.version
           status := some ⟨1, now, stringHasher loaded, true⟩ }

/-- Fixture: a compute-target model with an empty input and a stale
output. -/
def tm0 : TargetModel :=
  { version := 1, input := "", output := "x", status := none }

end Torch

/-! ## Theorems -/

namespace Stick

theorem readString_escape (p rest : List Char) :
    readString (escape p ++ ('"' :: rest)) = some (p, rest) := by
  induction p with
  | nil => simp [escape, readString]
  | cons c p ih =>
    by_cases hc : c = '"' ∨ c = '\\'
    · simp [escape, escapeChar, hc, readString, readEsc, ih]
    · push_neg at hc
      simp [escape, escapeChar, hc, readString, ih, hc.1, hc.2]

theorem dropTok_append (t s : List Char) : dropTok t (t ++ s) = some s := by
  induction t with
  | nil => simp [dropTok]
  | cons c t ih => simp [dropTok, ih]

theorem jsonUnmarshal_jsonMarshal (p : List Char) :
    jsonUnmarshal (jsonMarshal p) = some p := by
  have h1 : dropTok jsonHeader (jsonMarshal p) = some (escape p ++ ['"', '}']) := by
    simpa [jsonMarshal] using dropTok_append jsonHeader (escape p ++ ['"', '}'])
  have h2 : readString (escape p ++ ['"', '}']) = some (p, ['}']) := by
    simpa using readString_escape p ['}']
  simp [jsonUnmarshal, h1, h2]

theorem le32_int32le (n : Nat) (h : n < 4294967296) :
    le32 (n % 256) (n / 256 % 256) (n / 65536 % 256) (n / 16777216 % 256) = n := by
  unfold le32
  omega

theorem encodeUnits_length (p : List Char) : (encodeUnits p).length = 3 * p.length := by
  induction p with
  | nil => simp [encodeUnits]
  | cons c p ih => simp [encodeUnits, charBytes, ih]; ring

theorem readUnits_encodeUnits (p : List Char) (rest : List Nat) :
    readUnits p.length (encodeUnits p ++ rest) = some (p, rest) := by
  induction p with
  | nil => simp [encodeUnits, readUnits]
  | cons c p ih =>
    have hval : c.toNat % 256 + 256 * (c.toNat / 256 % 256) + 65536 * (c.toNat / 65536)
        = c.toNat := by omega
    simp [encodeUnits, charBytes, readUnits, ih, hval, Char.ofNat_toNat]

theorem bsonUnmarshal_bsonMarshal (p : List Char) (h : 3 * p.length + 1 < 4294967296) :
    bsonUnmarshal (bsonMarshal p) = some p := by
  have hlen : (encodeUnits p).length + 1 = 3 * p.length + 1 := by
    rw [encodeUnits_length]
  have hm : le32 ((3 * p.length + 1) % 256) ((3 * p.length + 1) / 256 % 256)
      ((3 * p.length + 1) / 65536 % 256) ((3 * p.length + 1) / 16777216 % 256)
      = 3 * p.length + 1 := le32_int32le _ h
  have hdiv : (3 * p.length + 1 - 1) / 3 = p.length := by omega
  have hmod : (3 * p.length + 1 - 1) % 3 = 0 := by omega
  have hread : readUnits p.length (encodeUnits p ++ [0, 0]) = some (p, [0, 0]) :=
    readUnits_encodeUnits p [0, 0]
  simp [bsonMarshal, bsonUnmarshal, keyBytes, int32le, hlen, hm, hdiv, hmod, hread]

theorem jsonUnmarshalB_jsonMarshalB (p : List Char) :
    jsonUnmarshalB (jsonMarshalB p) = some p := by
  have hmap : ((jsonMarshal p).map Char.toNat).map Char.ofNat = jsonMarshal p := by
    rw [List.map_map]
    have hco : Char.ofNat ∘ Char.toNat = id := funext Char.ofNat_toNat
    rw [hco, List.map_id]
  rw [jsonUnmarshalB, jsonMarshalB, hmap, jsonUnmarshal_jsonMarshal]

end Stick

namespace Axe

theorem lookup_setA_self {α β : Type} [BEq α] [LawfulBEq α] (k : α) (v : β)
    (l : List (α × β)) : (setA k v l).lookup k = some v := by
  induction l with
  | nil => simp [setA, List.lookup]
  | cons p rest ih =>
    obtain ⟨k2, v2⟩ := p
    by_cases h : k2 = k
    · have hb : (k2 == k) = true := beq_iff_eq.mpr h
      simp [setA, hb, List.lookup]
    · have hb : (k2 == k) = false := beq_eq_false_iff_ne.mpr h
      have hb2 : (k == k2) = false := beq_eq_false_iff_ne.mpr (Ne.symm h)
      simp [setA, hb, List.lookup, hb2, ih]

theorem lookup_setA_ne {α β : Type} [BEq α] [LawfulBEq α] (k n : α) (v : β)
    (l : List (α × β)) (h : n ≠ k) : (setA k v l).lookup n = l.lookup n := by
  have hnk : (n == k) = false := beq_eq_false_iff_ne.mpr h
  induction l with
  | nil => simp [setA, List.lookup, hnk]
  | cons p rest ih =>
    obtain ⟨k2, v2⟩ := p
    by_cases h2 : k2 = k
    · have hb : (k2 == k) = true := beq_iff_eq.mpr h2
      have hb2 : (n == k2) = false := beq_eq_false_iff_ne.mpr (h2 ▸ h)
      simp [setA, hb, List.lookup, hnk, hb2]
    · have hb : (k2 == k) = false := beq_eq_false_iff_ne.mpr h2
      simp [setA, hb, List.lookup, ih]

theorem lookup_delA_self {α β : Type} [BEq α] [LawfulBEq α] (k : α)
    (l : List (α × β)) : (delA k l).lookup k = none := by
  induction l with
  | nil => simp [delA, List.lookup]
  | cons p rest ih =>
    obtain ⟨k2, v2⟩ := p
    by_cases h : k2 = k
    · have hb : (k2 == k) = true := beq_iff_eq.mpr h
      simp [delA, hb, ih]
    · have hb : (k2 == k) = false := beq_eq_false_iff_ne.mpr h
      have hb2 : (k == k2) = false := beq_eq_false_iff_ne.mpr (Ne.symm h)
      simp [delA, hb, List.lookup, hb2, ih]

theorem mem_setA {α β : Type} [BEq α] (k : α) (v : β) (l : List (α × β))
    (e : α × β) (h : e ∈ setA k v l) : e = (k, v) ∨ e ∈ l := by
  induction l with
  | nil =>
    simp [setA] at h
    exact Or.inl h
  | cons p rest ih =>
    obtain ⟨k2, v2⟩ := p
    rw [setA] at h
    by_cases h2 : (k2 == k) = true
    · simp only [h2, if_pos] at h
      rcases List.mem_cons.mp h with h | h
      · exact Or.inl h
      · exact Or.inr (List.mem_cons_of_mem _ h)
    · simp only [h2, if_neg, Bool.not_eq_true] at h
      rcases List.mem_cons.mp h with h | h
      · exact Or.inr (h ▸ List.mem_cons_self _ rest)
      · rcases ih h with h3 | h3
        · exact Or.inl h3
        · exact Or.inr (List.mem_cons_of_mem _ h3)

theorem mem_delA {α β : Type} [BEq α] (k : α) (l : List (α × β))
    (e : α × β) (h : e ∈ delA k l) : e ∈ l := by
  induction l with
  | nil => simp [delA] at h
  | cons p rest ih =>
    obtain ⟨k2, v2⟩ := p
    rw [delA] at h
    by_cases h2 : (k2 == k) = true
    · simp only [h2, if_pos] at h
      exact List.mem_cons_of_mem _ (ih h)
    · simp only [h2, if_neg, Bool.not_eq_true] at h
      rcases List.mem_cons.mp h with h | h
      · exact h ▸ List.mem_cons_self _ rest
      · exact List.mem_cons_of_mem _ (ih h)

theorem getScan_none_iff (bp now : Int) (l : List (Nat × Model)) :
    getScan bp now l = none ↔ ∀ e ∈ l, ¬ (e.2.available < now) := by
  induction l with
  | nil => simp [getScan]
  | cons p rest ih =>
    obtain ⟨k, j⟩ := p
    by_cases h : j.available < now
    · simp [getScan, h]
    · simp [getScan, h, Option.map_eq_none, ih]
      intro _
      exact not_lt.mp h

theorem getScan_some (bp now : Int) (l : List (Nat × Model)) (i : Nat)
    (l2 : List (Nat × Model)) (h : getScan bp now l = some (i, l2)) :
    ∃ pre k j post, l = pre ++ (k, j) :: post ∧
      (∀ e ∈ pre, ¬ (e.2.available < now)) ∧ j.available < now ∧ i = j.id ∧
      l2 = pre ++ (k, { j with available := j.available + bp }) :: post := by
  induction l generalizing i l2 with
  | nil => simp [getScan] at h
  | cons p rest ih =>
    obtain ⟨k0, j0⟩ := p
    by_cases hav : j0.available < now
    · rw [getScan] at h
      simp only [hav, if_pos] at h
      have h2 := Option.some.inj h
      have hfst : j0.id = i := congrArg Prod.fst h2
      have hsnd := congrArg Prod.snd h2
      refine ⟨[], k0, j0, rest, by simp, by simp, hav, hfst.symm, ?_⟩
      simpa using hsnd.symm
    · rw [getScan] at h
      simp only [hav, if_neg, not_false_iff] at h
      rcases Option.map_eq_some'.mp h with ⟨r, hr, hmap⟩
      obtain ⟨i2, l3⟩ := r
      obtain ⟨pre, k, j, post, hsplit, hpre, hj, hi, hl⟩ := ih i2 l3 hr
      have hfst : i2 = i := congrArg Prod.fst hmap
      have hsnd : (k0, j0) :: l3 = l2 := congrArg Prod.snd hmap
      refine ⟨(k0, j0) :: pre, k, j, post, by simp [hsplit], ?_, hj, hfst ▸ hi, ?_⟩
      · intro e he
        rcases List.mem_cons.mp he with he | he
        · exact he ▸ hav
        · exact hpre e he
      · rw [← hsnd, hl]
        simp

end Axe

namespace Stick

/-- C6: for every payload value of a task's job type and each coding in
{json, bson}, unmarshalling the bytes produced by marshalling the value
yields the value back (within the 32-bit length limit of the BSON wire
format). -/
theorem claim6_coding_roundtrip (c : Coding) (p : List Char)
    (hc : c = JSON ∨ c = BSON) (hlen : 3 * p.length + 1 < 4294967296) :
    ∃ b, Coding.Marshal c p = .ok b ∧ Coding.Unmarshal c b = .ok (some p) := by
  rcases hc with hc | hc
  · subst hc
    refine ⟨jsonMarshalB p, by simp [Coding.Marshal], ?_⟩
    simp [Coding.Unmarshal, jsonUnmarshalB_jsonMarshalB]
  · subst hc
    have hne : BSON ≠ JSON := by decide
    refine ⟨bsonMarshal p, by simp [Coding.Marshal, hne], ?_⟩
    simp [Coding.Unmarshal, hne, bsonUnmarshal_bsonMarshal p hlen]

/-- Witness for C6 at the JSON coding and a two-character payload. -/
theorem claim6_coding_roundtrip_witness :
    ∃ b, Coding.Marshal JSON ['h', 'i'] = .ok b ∧
      Coding.Unmarshal JSON b = .ok (some ['h', 'i']) :=
  claim6_coding_roundtrip JSON ['h', 'i'] (Or.inl rfl) (by decide)

/-- C8: for every coding value that is neither "json" nor "bson", both
`Marshal` and `Unmarshal` panic with a message naming the unknown coding
and never return a result. -/
theorem claim8_unknown_coding (c : Coding) (p : List Char) (b : List Nat)
    (h1 : c ≠ JSON) (h2 : c ≠ BSON) :
    Coding.Marshal c p = .abort (unknownMsg c) ∧
    Coding.Unmarshal c b = .abort (unknownMsg c) ∧
    (∀ out, Coding.Marshal c p ≠ .ok out) ∧
    (∀ out, Coding.Unmarshal c b ≠ .ok out) := by
  have hm : Coding.Marshal c p = .abort (unknownMsg c) := by
    simp [Coding.Marshal, h1, h2]
  have hu : Coding.Unmarshal c b = .abort (unknownMsg c) := by
    simp [Coding.Unmarshal, h1, h2]
  refine ⟨hm, hu, ?_, ?_⟩
  · intro out hout
    rw [hm] at hout
    exact MResult.noConfusion hout
  · intro out hout
    rw [hu] at hout
    exact MResult.noConfusion hout

/-- Witness for C8 at the coding "xml". -/
theorem claim8_unknown_coding_witness :
    Coding.Marshal "xml" [] = .abort (unknownMsg "xml") ∧
    Coding.Unmarshal "xml" [] = .abort (unknownMsg "xml") ∧
    (∀ out, Coding.Marshal "xml" [] ≠ .ok out) ∧
    (∀ out, Coding.Unmarshal "xml" [] ≠ .ok out) :=
  claim8_unknown_coding "xml" [] [] (by decide) (by decide)

end Stick

namespace Axe

/-- C5: `Queue.Add` panics exactly when the queue is already running or a
task with the same job name is registered; otherwise it registers the task
and leaves every other registration and the rest of the queue unchanged. -/
theorem claim5_add (q : Queue) (t : Task) :
    ((∃ msg, q.Add t = .error msg) ↔
      (q.boards.isSome = true ∨ (q.tasks.lookup t.name).isSome = true)) ∧
    (∀ q2, q.Add t = .ok q2 →
      q2.tasks.lookup t.name = some t ∧
      (∀ n, n ≠ t.name → q2.tasks.lookup n = q.tasks.lookup n) ∧
      q2.boards = q.boards ∧ q2.store = q.store ∧
      q2.maxLag = q.maxLag ∧ q2.blockPeriod = q.blockPeriod) := by
  constructor
  · constructor
    · intro ⟨msg, hmsg⟩
      by_cases hb : q.boards.isSome = true
      · exact Or.inl hb
      · by_cases ht : (q.tasks.lookup t.name).isSome = true
        · exact Or.inr ht
        · rw [Queue.Add] at hmsg
          simp [hb, ht] at hmsg
    · intro h
      rcases h with h | h
      · exact ⟨"axe: unable to add task to running queue", by simp [Queue.Add, h]⟩
      · by_cases hb : q.boards.isSome = true
        · exact ⟨"axe: unable to add task to running queue", by simp [Queue.Add, hb]⟩
        · refine ⟨"axe: task with name \"" ++ t.name ++ "\" already exists", ?_⟩
          simp [Queue.Add, hb, h]
  · intro q2 hq2
    rw [Queue.Add] at hq2
    by_cases hb : q.boards.isSome = true
    · simp [hb] at hq2
    · by_cases ht : (q.tasks.lookup t.name).isSome = true
      · simp [hb, ht] at hq2
      · simp only [hb, ht, if_neg, Bool.not_eq_true, if_false] at hq2
        have hq2 := Except.ok.inj hq2
        subst hq2
        refine ⟨?_, ?_, rfl, rfl, rfl, rfl⟩
        · simp [List.lookup]
        · intro n hn
          have hb2 : (n == t.name) = false := beq_eq_false_iff_ne.mpr hn
          simp [List.lookup, hb2]

/-- Witness for C5: adding a task to a fresh queue succeeds and registers
it; the panic side of the iff is refuted at the same input. -/
theorem claim5_add_witness :
    ((∃ msg, (NewQueue 0 0 []).Add ⟨"t", 0⟩ = .error msg) ↔
      ((NewQueue 0 0 []).boards.isSome = true ∨
        (((NewQueue 0 0 []).tasks.lookup "t").isSome = true))) ∧
    (∀ q2, (NewQueue 0 0 []).Add ⟨"t", 0⟩ = .ok q2 →
      q2.tasks.lookup "t" = some ⟨"t", 0⟩ ∧
      (∀ n, n ≠ "t" → q2.tasks.lookup n = (NewQueue 0 0 []).tasks.lookup n) ∧
      q2.boards = (NewQueue 0 0 []).boards ∧ q2.store = (NewQueue 0 0 []).store ∧
      q2.maxLag = (NewQueue 0 0 []).maxLag ∧
      q2.blockPeriod = (NewQueue 0 0 []).blockPeriod) :=
  claim5_add (NewQueue 0 0 []) ⟨"t", 0⟩

/-- C9: a reconciler event for a job whose name matches no registered
board is silently dropped: `Queue.update` returns the queue unchanged. -/
theorem claim9_unregistered_dropped (q : Queue) (job : Model) (seed : Int) :
    (q.boards = none → q.update job seed = q) ∧
    (∀ bs, q.boards = some bs → bs.lookup job.name = none →
      q.update job seed = q) := by
  constructor
  · intro h
    simp [Queue.update, h]
  · intro bs hb hl
    simp [Queue.update, hb, hl]

/-- Witness for C9: an update for the name "u" on a queue whose boards map
holds only "t" leaves the queue unchanged. -/
theorem claim9_unregistered_dropped_witness :
    ({ maxLag := 100, blockPeriod := 10000, tasks := [("t", ⟨"t", 0⟩)],
       boards := some [("t", ⟨[]⟩)], store := [] } : Queue).update
      { id := 7, name := "u", label := "", status := .enqueued,
        available := 0, finished := 0 } 3 =
    { maxLag := 100, blockPeriod := 10000, tasks := [("t", ⟨"t", 0⟩)],
      boards := some [("t", ⟨[]⟩)], store := [] } :=
  (claim9_unregistered_dropped _ _ 3).2 [("t", ⟨[]⟩)] rfl (by decide)

end Axe

namespace Axe

/-- C1: with a positive period and a non-empty label, `Queue.Enqueue`
inserts nothing and reports `false` when a job with the same name and
label is non-terminal or finished within the period, inserts exactly one
job otherwise; in particular two consecutive enqueues within the period
insert exactly one job. -/
theorem claim1_enqueue_dedup (q : Queue) (now now2 : Int) (id1 id2 : Nat)
    (name label : String) (delay period : Int)
    (hp : 0 < period) (hl : label ≠ "") :
    (dupCheck q.store name label now period = true →
      q.Enqueue now id1 name label delay period = (false, q)) ∧
    (dupCheck q.store name label now period = false →
      q.Enqueue now id1 name label delay period =
        (true, { q with store := mkJob id1 name label (now + delay) :: q.store })) ∧
    (dupCheck q.store name label now period = false →
      now ≤ now2 → now2 ≤ now + period →
      ((((q.Enqueue now id1 name label delay period).2).Enqueue
          now2 id2 name label delay period).1 = false ∧
        ((((q.Enqueue now id1 name label delay period).2).Enqueue
            now2 id2 name label delay period).2).store.length
          = q.store.length + 1)) := by
  have hcond : 0 < period ∧ label ≠ "" := ⟨hp, hl⟩
  refine ⟨?_, ?_, ?_⟩
  · intro hdup
    simp [Queue.Enqueue, Enqueue, hcond, hdup]
  · intro hdup
    simp [Queue.Enqueue, Enqueue, hcond, hdup]
  · intro hdup h1 h2
    have hfirst : q.Enqueue now id1 name label delay period =
        (true, { q with store := mkJob id1 name label (now + delay) :: q.store }) := by
      simp [Queue.Enqueue, Enqueue, hcond, hdup]
    have hdup2 : dupCheck (mkJob id1 name label (now + delay) :: q.store)
        name label now2 period = true := by
      simp [dupCheck, mkJob, Status.dispatchable]
    rw [hfirst]
    constructor
    · simp [Queue.Enqueue, Enqueue, hcond, hdup2]
    · simp [Queue.Enqueue, Enqueue, hcond, hdup2]

/-- Witness for C1: on an empty store, the first enqueue inserts and the
second within the period is suppressed. -/
theorem claim1_enqueue_dedup_witness :
    (dupCheck (NewQueue 0 0 []).store "t" "l" 0 60 = true →
      (NewQueue 0 0 []).Enqueue 0 1 "t" "l" 0 60 = (false, NewQueue 0 0 [])) ∧
    (dupCheck (NewQueue 0 0 []).store "t" "l" 0 60 = false →
      (NewQueue 0 0 []).Enqueue 0 1 "t" "l" 0 60 =
        (true, { (NewQueue 0 0 []) with store := mkJob 1 "t" "l" (0 + 0) :: (NewQueue 0 0 []).store })) ∧
    (dupCheck (NewQueue 0 0 []).store "t" "l" 0 60 = false →
      (0 : Int) ≤ 30 → (30 : Int) ≤ 0 + 60 →
      (((((NewQueue 0 0 []).Enqueue 0 1 "t" "l" 0 60).2).Enqueue 30 2 "t" "l" 0 60).1 = false ∧
        (((((NewQueue 0 0 []).Enqueue 0 1 "t" "l" 0 60).2).Enqueue 30 2 "t" "l" 0 60).2).store.length
          = (NewQueue 0 0 []).store.length + 1)) :=
  claim1_enqueue_dedup (NewQueue 0 0 []) 0 30 1 2 "t" "l" 0 60 (by decide) (by decide)

/-- C4: a reconciler update that stores a job on its board stores it with
`Available` shifted by a lag in `[0, MaxLag)`; the lag affects only the
board entry and the persistent store is untouched. -/
theorem claim4_update_lag (q : Queue) (job : Model) (seed : Int)
    (bs : List (String × Board)) (b : Board)
    (hb : q.boards = some bs) (hl : bs.lookup job.name = some b)
    (hs : job.status = .enqueued ∨ job.status = .dequeued ∨ job.status = .failed)
    (hm : 0 < q.maxLag) :
    (0 ≤ lagOf seed q.maxLag ∧ lagOf seed q.maxLag < q.maxLag) ∧
    (∃ bs2 b2, (q.update job seed).boards = some bs2 ∧
      bs2.lookup job.name = some b2 ∧
      b2.jobs.lookup job.id =
        some { job with available := job.available + lagOf seed q.maxLag }) ∧
    (q.update job seed).store = q.store := by
  have hbound : 0 ≤ lagOf seed q.maxLag ∧ lagOf seed q.maxLag < q.maxLag :=
    ⟨Int.emod_nonneg seed (ne_of_gt hm), Int.emod_lt_of_pos seed hm⟩
  refine ⟨hbound, ?_, ?_⟩
  · rcases hs with hs | hs | hs
    all_goals
      exact ⟨setA job.name ⟨setA job.id
          { job with available := job.available + lagOf seed q.maxLag } b.jobs⟩ bs,
        ⟨setA job.id { job with available := job.available + lagOf seed q.maxLag } b.jobs⟩,
        by simp [Queue.update, hb, hl, hs],
        lookup_setA_self _ _ _, lookup_setA_self _ _ _⟩
  · rcases hs with hs | hs | hs
    all_goals simp [Queue.update, hb, hl, hs]

/-- Witness for C4: updating a board with a failed job at seed 7 and
MaxLag 100 stores it with lag 7 and leaves the store alone. -/
theorem claim4_update_lag_witness :
    ((0 : Int) ≤ lagOf 7 (100 : Int) ∧ lagOf 7 (100 : Int) < 100) ∧
    (∃ bs2 b2,
      (({ maxLag := 100, blockPeriod := 10000, tasks := [("t", ⟨"t", 0⟩)],
          boards := some [("t", ⟨[]⟩)], store := [] } : Queue).update
        { id := 3, name := "t", label := "", status := .failed,
          available := 50, finished := 0 } 7).boards = some bs2 ∧
      bs2.lookup "t" = some b2 ∧
      b2.jobs.lookup 3 =
        some { id := 3, name := "t", label := "", status := .failed,
               available := 50 + lagOf 7 (100 : Int), finished := 0 }) ∧
    (({ maxLag := 100, blockPeriod := 10000, tasks := [("t", ⟨"t", 0⟩)],
        boards := some [("t", ⟨[]⟩)], store := [] } : Queue).update
      { id := 3, name := "t", label := "", status := .failed,
        available := 50, finished := 0 } 7).store = [] :=
  claim4_update_lag
    { maxLag := 100, blockPeriod := 10000, tasks := [("t", ⟨"t", 0⟩)],
      boards := some [("t", ⟨[]⟩)], store := [] }
    { id := 3, name := "t", label := "", status := .failed,
      available := 50, finished := 0 } 7 [("t", ⟨[]⟩)] ⟨[]⟩
    rfl (by decide) (Or.inr (Or.inr rfl)) (by decide)

end Axe

namespace Axe

theorem lookup_mem {α β : Type} [BEq α] [LawfulBEq α] (k : α) (v : β)
    (l : List (α × β)) (h : l.lookup k = some v) : (k, v) ∈ l := by
  induction l with
  | nil => simp [List.lookup] at h
  | cons p rest ih =>
    obtain ⟨k2, v2⟩ := p
    by_cases h2 : k = k2
    · have hb : (k == k2) = true := beq_iff_eq.mpr h2
      simp only [List.lookup, hb] at h
      have h3 := Option.some.inj h
      subst h2
      rw [← h3]
      exact List.mem_cons_self _ _
    · have hb : (k == k2) = false := beq_eq_false_iff_ne.mpr h2
      simp only [List.lookup, hb] at h
      exact List.mem_cons_of_mem _ (ih h)

theorem BoardsInv_Run (q : Queue) : BoardsInv q.Run := by
  intro bs hbs p hp e he
  rw [Queue.Run] at hbs
  have hbs2 := Option.some.inj hbs
  rw [← hbs2] at hp
  rcases List.mem_map.mp hp with ⟨x, _, hpx⟩
  rw [← hpx] at he
  simp at he

theorem BoardsInv_update (q : Queue) (job : Model) (seed : Int)
    (h : BoardsInv q) : BoardsInv (q.update job seed) := by
  rcases hq : q.boards with _ | bs
  · intro bs2 hbs2 p hp e he
    simp only [Queue.update, hq] at hbs2
    exact Option.noConfusion hbs2
  · rcases hlk : bs.lookup job.name with _ | b
    · intro bs2 hbs2 p hp e he
      simp only [Queue.update, hq, hlk] at hbs2
      have hbs3 := Option.some.inj hbs2
      rw [← hbs3] at hp
      exact h bs hq p hp e he
    · have hmem : (job.name, b) ∈ bs := lookup_mem _ _ _ hlk
      intro bs2 hbs2 p hp e he
      rcases hst : job.status with _ | _ | _ | _ | _
      all_goals
        simp only [Queue.update, hq, hlk, hst] at hbs2
      case enqueued | dequeued | failed =>
        have hbs3 := Option.some.inj hbs2
        rw [← hbs3] at hp
        rcases mem_setA _ _ _ _ hp with hp2 | hp2
        · rw [hp2] at he
          rcases mem_setA _ _ _ _ he with he2 | he2
          · rw [he2]
            simp [Status.dispatchable, hst]
          · exact h bs hq (job.name, b) hmem e he2
        · exact h bs hq p hp2 e he
      case completed | cancelled =>
        have hbs3 := Option.some.inj hbs2
        rw [← hbs3] at hp
        rcases mem_setA _ _ _ _ hp with hp2 | hp2
        · rw [hp2] at he
          exact h bs hq (job.name, b) hmem e (mem_delA _ _ _ he)
        · exact h bs hq p hp2 e he

theorem BoardsInv_applyUpdates (q : Queue) (cbs : List (Model × Int))
    (h : BoardsInv q) : BoardsInv (applyUpdates q cbs) := by
  induction cbs generalizing q with
  | nil => exact h
  | cons c rest ih =>
    rw [applyUpdates]
    exact ih _ (BoardsInv_update _ _ _ h)

/-- C3: after any sequence of reconciler callbacks every board entry has a
dispatchable status; a callback for a dispatchable job stores it on its
board, and a callback for a completed or cancelled job removes its board
entry. -/
theorem claim3_board_status :
    (∀ (q : Queue) (cbs : List (Model × Int)), BoardsInv (applyUpdates q.Run cbs)) ∧
    (∀ (q : Queue) (job : Model) (seed : Int) (bs : List (String × Board)) (b : Board),
      q.boards = some bs → bs.lookup job.name = some b →
      (job.status = .enqueued ∨ job.status = .dequeued ∨ job.status = .failed) →
      ∃ bs2 b2, (q.update job seed).boards = some bs2 ∧
        bs2.lookup job.name = some b2 ∧
        b2.jobs.lookup job.id =
          some { job with available := job.available + lagOf seed q.maxLag }) ∧
    (∀ (q : Queue) (job : Model) (seed : Int) (bs : List (String × Board)) (b : Board),
      q.boards = some bs → bs.lookup job.name = some b →
      (job.status = .completed ∨ job.status = .cancelled) →
      ∃ bs2 b2, (q.update job seed).boards = some bs2 ∧
        bs2.lookup job.name = some b2 ∧
        b2.jobs.lookup job.id = none) := by
  refine ⟨?_, ?_, ?_⟩
  · intro q cbs
    exact BoardsInv_applyUpdates _ _ (BoardsInv_Run q)
  · intro q job seed bs b hb hl hs
    rcases hs with hs | hs | hs
    all_goals
      exact ⟨setA job.name ⟨setA job.id
          { job with available := job.available + lagOf seed q.maxLag } b.jobs⟩ bs,
        ⟨setA job.id { job with available := job.available + lagOf seed q.maxLag } b.jobs⟩,
        by simp [Queue.update, hb, hl, hs],
        lookup_setA_self _ _ _, lookup_setA_self _ _ _⟩
  · intro q job seed bs b hb hl hs
    rcases hs with hs | hs
    all_goals
      exact ⟨setA job.name ⟨delA job.id b.jobs⟩ bs, ⟨delA job.id b.jobs⟩,
        by simp [Queue.update, hb, hl, hs],
        lookup_setA_self _ _ _, lookup_delA_self _ _⟩

/-- Witness for C3: a callback for a completed job removes its entry from
a concrete board that holds it. -/
theorem claim3_board_status_witness :
    ∃ bs2 b2,
      ((runningQ boardD).update jobC 0).boards = some bs2 ∧
      bs2.lookup "t" = some b2 ∧
      b2.jobs.lookup 3 = none :=
  claim3_board_status.2.2 (runningQ boardD) jobC 0 [("t", boardD)] boardD
    rfl (by decide) (Or.inl rfl)

end Axe

namespace Axe

/-- C2 counterexample: on a board whose only job has `Available` equal to
`now`, a job with `Available ≤ now` exists, yet `Queue.get` returns the
zero id and `false` and changes nothing — the source compares with the
strict `time.Before`, so the claim's non-strict bound fails at the
boundary. -/
theorem claim2_get_counterexample :
    (∃ e ∈ boardE5.jobs, e.2.available ≤ (5 : Int)) ∧
    (runningQ boardE5).get "t" 5 = some ((0, false), runningQ boardE5) := by
  constructor
  · exact ⟨(1, jobE5), by simp [boardE5], by decide⟩
  · decide

/-- C2 amended: `Queue.get` returns `(ID, true)` for some job of the named
board whose `Available` is strictly before `now`, after pushing that job's
`Available` by the block period; when no job's `Available` is strictly
before `now` it returns the zero id and `false` and changes nothing. -/
theorem claim2_get_amended (q : Queue) (name : String) (now : Int)
    (bs : List (String × Board)) (b : Board)
    (hb : q.boards = some bs) (hl : bs.lookup name = some b) :
    ((∀ e ∈ b.jobs, ¬ (e.2.available < now)) →
      q.get name now = some ((0, false), q)) ∧
    ((∃ e ∈ b.jobs, e.2.available < now) →
      ∃ pre k j post, b.jobs = pre ++ (k, j) :: post ∧ j.available < now ∧
        q.get name now = some ((j.id, true),
          { q with boards := some (setA name
            ⟨pre ++ (k, { j with available := j.available + q.blockPeriod }) :: post⟩ bs) })) := by
  constructor
  · intro hall
    have hnone : getScan q.blockPeriod now b.jobs = none :=
      (getScan_none_iff _ _ _).mpr hall
    simp [Queue.get, hb, hl, hnone]
  · intro hex
    rcases ho : getScan q.blockPeriod now b.jobs with _ | r
    · rcases hex with ⟨e, he, hav⟩
      exact absurd hav ((getScan_none_iff _ _ _).mp ho e he)
    · obtain ⟨i, l2⟩ := r
      obtain ⟨pre, k, j, post, hsplit, hpre, hj, hi, hl2⟩ := getScan_some _ _ _ _ _ ho
      refine ⟨pre, k, j, post, hsplit, hj, ?_⟩
      simp [Queue.get, hb, hl, ho, hi, hl2]

/-- Witness for C2 (amended): at time 6 the job available at 5 is
returned and blocked. -/
theorem claim2_get_amended_witness :
    ∃ pre k j post, boardE5.jobs = pre ++ (k, j) :: post ∧ j.available < 6 ∧
      (runningQ boardE5).get "t" 6 = some ((j.id, true),
        { (runningQ boardE5) with boards := some (setA "t"
          ⟨pre ++ (k, { j with available := j.available + (runningQ boardE5).blockPeriod }) :: post⟩
          [("t", boardE5)]) }) :=
  (claim2_get_amended (runningQ boardE5) "t" 6 [("t", boardE5)] boardE5
      rfl (by decide)).2
    ⟨(1, jobE5), by simp [boardE5], by decide⟩

/-- C10: `Queue.get` changes at most one board entry — the `Available`
of the job it returns — and leaves every other entry of that board, every
other board and the rest of the queue unchanged; on a miss the whole queue
is unchanged. -/
theorem claim10_get_frame (q : Queue) (name : String) (now : Int)
    (r : Nat × Bool) (q2 : Queue) (h : q.get name now = some (r, q2)) :
    q2.store = q.store ∧ q2.tasks = q.tasks ∧ q2.maxLag = q.maxLag ∧
    q2.blockPeriod = q.blockPeriod ∧
    (r.2 = false → q2 = q) ∧
    (r.2 = true → ∃ bs b pre k j post,
      q.boards = some bs ∧ bs.lookup name = some b ∧
      b.jobs = pre ++ (k, j) :: post ∧ r.1 = j.id ∧ j.available < now ∧
      q2.boards = some (setA name
        ⟨pre ++ (k, { j with available := j.available + q.blockPeriod }) :: post⟩ bs) ∧
      (∀ n2, n2 ≠ name →
        (setA name (⟨pre ++ (k, { j with available := j.available + q.blockPeriod }) :: post⟩ : Board)
          bs).lookup n2 = bs.lookup n2)) := by
  rcases hq : q.boards with _ | bs
  · simp only [Queue.get, hq] at h
    exact Option.noConfusion h
  · rcases hlk : bs.lookup name with _ | b
    · simp only [Queue.get, hq, hlk] at h
      exact Option.noConfusion h
    · rcases ho : getScan q.blockPeriod now b.jobs with _ | rr
      · simp only [Queue.get, hq, hlk, ho] at h
        have h2 := Option.some.inj h
        have h3 : ((0 : Nat), false) = r := congrArg Prod.fst h2
        have h4 : q = q2 := congrArg Prod.snd h2
        subst h4
        refine ⟨rfl, rfl, rfl, rfl, fun _ => rfl, ?_⟩
        intro htrue
        rw [← h3] at htrue
        simp at htrue
      · obtain ⟨i, l2⟩ := rr
        simp only [Queue.get, hq, hlk, ho] at h
        have h2 := Option.some.inj h
        have h3 : (i, true) = r := congrArg Prod.fst h2
        have h4 : { q with boards := some (setA name ⟨l2⟩ bs) } = q2 :=
          congrArg Prod.snd h2
        obtain ⟨pre, k, j, post, hsplit, hpre, hj, hi, hl2⟩ := getScan_some _ _ _ _ _ ho
        rw [← h4]
        refine ⟨rfl, rfl, rfl, rfl, ?_, ?_⟩
        · intro hfalse
          rw [← h3] at hfalse
          simp at hfalse
        · intro _
          refine ⟨bs, b, pre, k, j, post, rfl, hlk, hsplit, ?_, hj, ?_, ?_⟩
          · rw [← h3, hi]
          · rw [hl2]
          · intro n2 hn2
            exact lookup_setA_ne name n2 _ bs hn2

/-- Witness for C10: the hit at time 6 on the board with the job available
at 5 rewrites exactly that entry and nothing else. -/
theorem claim10_get_frame_witness :
    (runningQ boardE5b).store = (runningQ boardE5).store ∧
    (runningQ boardE5b).tasks = (runningQ boardE5).tasks ∧
    (runningQ boardE5b).maxLag = (runningQ boardE5).maxLag ∧
    (runningQ boardE5b).blockPeriod = (runningQ boardE5).blockPeriod ∧
    (((1 : Nat), true).2 = false → runningQ boardE5b = runningQ boardE5) ∧
    (((1 : Nat), true).2 = true → ∃ bs b pre k j post,
      (runningQ boardE5).boards = some bs ∧ bs.lookup "t" = some b ∧
      b.jobs = pre ++ (k, j) :: post ∧ ((1 : Nat), true).1 = j.id ∧ j.available < 6 ∧
      (runningQ boardE5b).boards = some (setA "t"
        ⟨pre ++ (k, { j with available := j.available + (runningQ boardE5).blockPeriod }) :: post⟩ bs) ∧
      (∀ n2, n2 ≠ "t" →
        (setA "t" (⟨pre ++ (k, { j with available := j.available + (runningQ boardE5).blockPeriod }) :: post⟩ : Board)
          bs).lookup n2 = bs.lookup n2)) :=
  claim10_get_frame (runningQ boardE5) "t" 6 (1, true) (runningQ boardE5b) (by decide)

end Axe

namespace Torch

/-- C7: when the hasher yields the empty string and the model's version is
unchanged since load, the process job commits the releaser's staged
changes (output cleared) together with the validated empty-hash status. -/
theorem claim7_release_path (loaded current : TargetModel) (now : Int)
    (hv : current.version = loaded.version) (hh : stringHasher loaded = "") :
    processJob loaded current now =
      some { releaser current with status := some ⟨1, now, "", true⟩ } ∧
    (releaser current).output = "" := by
  constructor
  · simp [processJob, hv, hh]
  · simp [releaser]

/-- Witness for C7 at a model with empty input. -/
theorem claim7_release_path_witness :
    processJob tm0 tm0 7 =
      some { releaser tm0 with status := some ⟨1, 7, "", true⟩ } ∧
    (releaser tm0).output = "" :=
  claim7_release_path tm0 tm0 7 rfl (by decide)

end Torch
